import Mathlib

/-!
Verification development for the SecurityReview triage pipeline
(`src/generate_sources`): shallow embedding of the finding normalizer
(`analyze.py`), the deployment-context resolver (`deployment_parser.py`)
and the triage agent (`agent.py`), with theorems settling the spec claims.

Python strings are modelled as Lean `String` (a wrapper around `List Char`);
the handful of Python string operations the code uses are embedded as
executable list-level functions below.  External classification calls
(pydantic-ai agents) are modelled as oracle parameters returning
`Except Unit _` (a raised exception is `.error ()`).
-/

set_option maxHeartbeats 1000000

namespace SecurityReview

/-! ### Python string primitives -/

/-- `listStarts pat s`: `pat` is a prefix of `s` (char lists). -/
def listStarts : List Char → List Char → Bool
  | [], _ => true
  | _ :: _, [] => false
  | p :: ps, c :: cs => p == c && listStarts ps cs

/-- `listHas pat s`: Python `pat in s` (contiguous substring test on char lists). -/
def listHas (pat : List Char) : List Char → Bool
  | [] => listStarts pat []
  | c :: cs => listStarts pat (c :: cs) || listHas pat cs

/-- Python `s.startswith(pat)`. -/
def pyStartsWith (s pat : String) : Bool := listStarts pat.data s.data

/-- Python `pat in s`. -/
def pyHas (s pat : String) : Bool := listHas pat.data s.data

/-- Python `s.lower()` (ASCII case folding, as used on paths). -/
def pyLower (s : String) : String := ⟨s.data.map Char.toLower⟩

/-- Python `s.upper()` (ASCII case folding, as used on classifier replies). -/
def pyUpper (s : String) : String := ⟨s.data.map Char.toUpper⟩

/-- Python `s.replace('\\', '/')` (single-character replacement). -/
def pyReplaceBackslash (s : String) : String :=
  ⟨s.data.map (fun c => if c = '\\' then '/' else c)⟩

/-- Whitespace characters stripped by Python `str.strip()`. -/
def isPySpace (c : Char) : Bool :=
  c == ' ' || c == '\t' || c == '\n' || c == '\r' || c == '\x0b' || c == '\x0c'

/-- Python `s.strip()`. -/
def pyStrip (s : String) : String :=
  ⟨((s.data.dropWhile isPySpace).reverse.dropWhile isPySpace).reverse⟩

/-- Python `s.strip('/')`. -/
def stripSlashes (s : String) : String :=
  ⟨((s.data.dropWhile (· == '/')).reverse.dropWhile (· == '/')).reverse⟩

/-- Python `s.split('/')` on the underlying char list. -/
def splitSlashAux : List Char → List String
  | [] => [""]
  | c :: cs =>
    let r := splitSlashAux cs
    if c = '/' then "" :: r
    else
      match r with
      | [] => [String.mk [c]]
      | s :: rest => String.mk (c :: s.data) :: rest

/-- Python `s.split('/')`. -/
def pySplitSlash (s : String) : List String := splitSlashAux s.data

/-- Decimal digit character, Python-style (`str` of a digit). -/
def digitChar : Nat → Char
  | 0 => '0' | 1 => '1' | 2 => '2' | 3 => '3' | 4 => '4'
  | 5 => '5' | 6 => '6' | 7 => '7' | 8 => '8' | _ => '9'

/-- Python `str(n)` for a non-negative integer, as a char list. -/
def pyStrNat (n : Nat) : List Char :=
  if _h : n < 10 then [digitChar n]
  else pyStrNat (n / 10) ++ [digitChar (n % 10)]
  decreasing_by simp_wf; exact Nat.div_lt_self (by omega) (by omega)

/-- Python `str(i)` for an `int`. -/
def pyStrInt (i : Int) : String :=
  if i < 0 then ⟨'-' :: pyStrNat (-i).toNat⟩ else ⟨pyStrNat i.toNat⟩

/-! ### Data model (`models.py`) -/

/-- `models.RiskLevel`. -/
inductive RiskLevel
  | critical | high | medium | low | info
deriving DecidableEq, Repr

/-- `models.VulnerabilityType` (collapsed to its name string: only the enum
value's identity is ever used by the code under verification). -/
structure VulnerabilityType where
  value : String
deriving DecidableEq, Repr

/-- `models.SecurityConcern` (`confidence` is a rational in `[0,1]` supplied by
the classifier; the triage code never computes with it). -/
structure SecurityConcern where
  vulnerability_type : VulnerabilityType
  description : String
  confidence : Rat
deriving DecidableEq, Repr

/-- `models.CodeLocation`. -/
structure CodeLocation where
  file_path : String
  line_number : Int
  column : Option Int := none
  snippet : Option String := none
deriving DecidableEq, Repr

/-- `models.AstGrepFinding`. -/
structure AstGrepFinding where
  file_path : String
  line_number : Int
  column : Int
  rule_id : String
  message : String
  code_snippet : String
  framework : String
  language : String
deriving DecidableEq, Repr

/-- The deployment context record built by
`DeploymentModelParser.get_deployment_context` (`deployment_parser.py:137-145`).
The `DeploymentContext` pydantic model it instantiates is referenced by
`deployment_parser.py` and read back by `analyze.py`'s formatters but its
declaration is not among the sources; its fields are exactly the keyword
arguments at the construction site. -/
structure DeploymentContext where
  service_name : String
  trust_zone : Option String
  network_exposure : String
  authentication_method : Option String
  deployment_target : Option String
  upstream_services : List String
  downstream_services : List String
deriving DecidableEq, Repr

/-- `models.FunctionAnalysis`.  The `deployment_context` field is
Modelled from the spec: §3 gives `FunctionAnalysis` an "optional
DeploymentContext" with a "one-time DeploymentContext attachment"; the field
is read by `analyze.py`'s formatters (`analysis.deployment_context`) but is
missing from the `models.py` under `src/`. -/
structure FunctionAnalysis where
  function_name : String
  location : CodeLocation
  framework : String
  language : String
  input_sources : List String := []
  accepts_unauthenticated_input : Bool
  risk_level : RiskLevel
  security_concerns : List SecurityConcern := []
  endpoint_path : Option String := none
  http_methods : List String := []
  has_input_validation : Option Bool := none
  has_sanitization : Option Bool := none
  has_authorization_check : Option Bool := none
  reasoning : String
  deployment_context : Option DeploymentContext := none
deriving DecidableEq, Repr

/-- `models.PrioritizedFindings`. -/
structure PrioritizedFindings where
  total_functions_analyzed : Nat
  high_priority_count : Nat
  findings : List FunctionAnalysis
  summary : String
  recommendations : List String
deriving DecidableEq, Repr

/-! ### Deployment model, raw-JSON view (`deployment_parser.py`)

`DeploymentModelParser._load` keeps the parsed JSON as plain dictionaries and
`get_deployment_context` reads them with `.get`, so the embedding models the
raw dictionaries: a field is `Option _` when the code reads it with a
one-argument `.get` (absent/null collapses to `none`). -/

/-- A service entry of the raw `services` dict, restricted to the keys
`get_deployment_context` reads. -/
structure SvcInfo where
  name : Option String := none
  network_exposure : Option String := none
  deployment_target : Option String := none
  upstream_services : List String := []
  downstream_services : List String := []
  repository_paths : List String := []
deriving DecidableEq, Repr

/-- A record of the raw `communications` list, restricted to the keys read. -/
structure CommRec where
  from_service : Option String := none
  auth_method : Option String := none
deriving DecidableEq, Repr

/-- A record of the raw `trust_zones` list, restricted to the keys read. -/
structure ZoneRec where
  name : Option String := none
  services : List String := []
deriving DecidableEq, Repr

/-- The loaded deployment model as `get_deployment_context` sees it
(`self.services` is an insertion-ordered dict, modelled as an association
list in declaration order). -/
structure DeployModel where
  services : List (String × SvcInfo) := []
  trust_zones : List ZoneRec := []
  communications : List CommRec := []
  user_authentication_method : Option String := none
deriving DecidableEq, Repr

/-- Python truthiness of an optional string (`if not auth_method`,
`if not code_context`): `None` and the empty string are falsy. -/
def optFalsy : Option String → Bool
  | none => true
  | some s => s == ""

/-- `deployment_parser.py:60`: `file_path.replace('\\', '/').lower()`. -/
def normPath (file_path : String) : String := pyLower (pyReplaceBackslash file_path)

/-- `deployment_parser.py:76`: `repo_path.replace('\\', '/').lower().strip('/')`. -/
def normFrag (repo_path : String) : String :=
  stripSlashes (pyLower (pyReplaceBackslash repo_path))

/-- The three matching strategies of `get_deployment_context`
(`deployment_parser.py:78-101`), as the condition under which the
(identical) update bodies run: (1) exact prefix match, (2) `/frag/` infix
match, (3) `frag` equals one path component. -/
def fragMatches (npath : String) (parts : List String) (nfrag : String) : Bool :=
  if pyStartsWith npath (nfrag ++ "/") then true
  else if pyHas npath ("/" ++ nfrag ++ "/") then true
  else parts.contains nfrag

/-- Inner fragment loop of `get_deployment_context` (`deployment_parser.py:75-101`):
threads `(matched_service with its key, best_match_length)` through the
declared `repository_paths`, updating on a strictly greater matched length. -/
def scanFrags (npath : String) (parts : List String) (name : String) (info : SvcInfo) :
    List String → Option (String × SvcInfo) × Nat → Option (String × SvcInfo) × Nat
  | [], st => st
  | repo_path :: rest, (best, best_len) =>
    let nf := normFrag repo_path
    if fragMatches npath parts nf && decide (nf.length > best_len) then
      scanFrags npath parts name info rest (some (name, info), nf.length)
    else
      scanFrags npath parts name info rest (best, best_len)

/-- Outer service loop of `get_deployment_context` (`deployment_parser.py:71-101`),
over the services in declaration order. -/
def scanServices (npath : String) (parts : List String) :
    List (String × SvcInfo) → Option (String × SvcInfo) × Nat → Option (String × SvcInfo) × Nat
  | [], st => st
  | (name, info) :: rest, st =>
    scanServices npath parts rest (scanFrags npath parts name info info.repository_paths st)

/-- `DeploymentModelParser.get_deployment_context` (`deployment_parser.py:46-145`). -/
def get_deployment_context (m : DeployModel) (file_path : String) : Option DeploymentContext :=
  if m.services.isEmpty then none
  else
    let normalized_path := normPath file_path
    let path_parts := pySplitSlash normalized_path
    match scanServices normalized_path path_parts m.services (none, 0) with
    | (none, _) => none
    | (some (matched_service_name, matched_service), _) =>
      let trust_zone : Option String :=
        (m.trust_zones.find? (fun z => z.services.contains matched_service_name)).bind
          (fun z => z.name)
      let auth0 : Option String :=
        match m.communications.find? (fun c => c.from_service == some matched_service_name) with
        | some c => c.auth_method
        | none => none
      let auth_method : Option String :=
        if optFalsy auth0 then m.user_authentication_method else auth0
      some
        { service_name := matched_service.name.getD matched_service_name
          trust_zone := trust_zone
          network_exposure := matched_service.network_exposure.getD "Internal only"
          authentication_method := auth_method
          deployment_target := matched_service.deployment_target
          upstream_services := matched_service.upstream_services
          downstream_services := matched_service.downstream_services }

/-! ### Classification tiers and the triage agent (`agent.py`)

The two pydantic-ai agents are external calls; they are embedded as oracle
parameters.  An oracle is a function of exactly the data the source feeds
into the corresponding prompt (the finding plus the code context); a raised
exception is `Except.error ()`. -/

/-- The fast filter call `self.fast_filter.run(quick_prompt)` of
`fast_check_false_positive`: returns the model's raw string reply or fails. -/
abbrev FastOracle := AstGrepFinding → String → Except Unit String

/-- The deep call `self.triage_agent.run(triage_prompt)` of `triage_function`:
returns a structured `FunctionAnalysis` or fails. -/
abbrev DeepOracle := AstGrepFinding → String → Except Unit FunctionAnalysis

/-- `code_reader(file_path, line_num) -> Optional[str]` (`analyze.py:550-551`). -/
abbrev CodeReader := String → Int → Option String

/-- `SecurityTriageAgent.fast_check_false_positive` (`agent.py:237-266`):
on success, strip/uppercase the reply and test the two substrings; on any
exception, return `False` ("assume it's real"). -/
def fast_check_false_positive (fast_filter : FastOracle) (finding : AstGrepFinding)
    (code_context : String) : Bool :=
  match fast_filter finding code_context with
  | .error _ => false
  | .ok out =>
    let response := pyUpper (pyStrip out)
    pyHas response "FALSE_POSITIVE" || pyHas response "FALSE"

/-- The loop guard `if max_real_handlers and real_handler_count >= max_real_handlers`
(`agent.py:293`, `agent.py:380`): `max_real_handlers : int | None`, and a
Python `int` is truthy iff nonzero. -/
def quotaReached (max_real_handlers : Option Int) (real_handler_count : Nat) : Bool :=
  match max_real_handlers with
  | none => false
  | some n => !(n == 0) && decide ((real_handler_count : Int) ≥ n)

/-- Final state of `SecurityTriageAgent.triage_all_findings`'s loop: the
accumulated `analyses` (deep-analyzed count is its length), the
`fast_filtered_count` and the `real_handler_count`. -/
structure TriageResult where
  analyses : List FunctionAnalysis := []
  fast_filtered_count : Nat := 0
  real_handler_count : Nat := 0
deriving DecidableEq, Repr

/-- The `for` loop of `SecurityTriageAgent.triage_all_findings`
(`agent.py:355-428`), as a recursion over the remaining findings threading
`real_handler_count`.  Per finding, in source order: quota check (break);
read code context (skip when falsy); fast filter (count and skip when
`True`); deep triage (skip on exception; else append, and bump
`real_handler_count` when the risk level is not INFO). -/
def triage_all_findings (fast : FastOracle) (deep : DeepOracle) (code_reader : CodeReader)
    (max_real_handlers : Option Int) :
    List AstGrepFinding → Nat → TriageResult
  | [], rc => { real_handler_count := rc }
  | finding :: rest, rc =>
    if quotaReached max_real_handlers rc then { real_handler_count := rc }
    else
      match code_reader finding.file_path finding.line_number with
      | none => triage_all_findings fast deep code_reader max_real_handlers rest rc
      | some code_context =>
        if code_context = "" then
          triage_all_findings fast deep code_reader max_real_handlers rest rc
        else if fast_check_false_positive fast finding code_context then
          let r := triage_all_findings fast deep code_reader max_real_handlers rest rc
          { r with fast_filtered_count := r.fast_filtered_count + 1 }
        else
          match deep finding code_context with
          | .error _ => triage_all_findings fast deep code_reader max_real_handlers rest rc
          | .ok analysis =>
            let rc' := if analysis.risk_level ≠ RiskLevel.info then rc + 1 else rc
            let r := triage_all_findings fast deep code_reader max_real_handlers rest rc'
            { r with analyses := analysis :: r.analyses }

/-- Final state of `SecurityTriageAgent.triage_all_findings_streaming`'s loop:
the yielded analyses in order plus its three counters. -/
structure StreamResult where
  yielded : List FunctionAnalysis := []
  fast_filtered_count : Nat := 0
  total_analyzed : Nat := 0
  real_handler_count : Nat := 0
deriving DecidableEq, Repr

/-- The `for` loop of `SecurityTriageAgent.triage_all_findings_streaming`
(`agent.py:268-344`): identical decision structure to the batch loop, but
yields each analysis immediately and counts `total_analyzed` instead of
materializing the list. -/
def triage_all_findings_streaming (fast : FastOracle) (deep : DeepOracle)
    (code_reader : CodeReader) (max_real_handlers : Option Int) :
    List AstGrepFinding → Nat → StreamResult
  | [], rc => { real_handler_count := rc }
  | finding :: rest, rc =>
    if quotaReached max_real_handlers rc then { real_handler_count := rc }
    else
      match code_reader finding.file_path finding.line_number with
      | none => triage_all_findings_streaming fast deep code_reader max_real_handlers rest rc
      | some code_context =>
        if code_context = "" then
          triage_all_findings_streaming fast deep code_reader max_real_handlers rest rc
        else if fast_check_false_positive fast finding code_context then
          let r := triage_all_findings_streaming fast deep code_reader max_real_handlers rest rc
          { r with fast_filtered_count := r.fast_filtered_count + 1 }
        else
          match deep finding code_context with
          | .error _ =>
            triage_all_findings_streaming fast deep code_reader max_real_handlers rest rc
          | .ok analysis =>
            let rc' := if analysis.risk_level ≠ RiskLevel.info then rc + 1 else rc
            let r := triage_all_findings_streaming fast deep code_reader max_real_handlers rest rc'
            { r with yielded := analysis :: r.yielded, total_analyzed := r.total_analyzed + 1 }

/-- Modelled from the spec: §4.4 "else run classify_deep, attach
DeploymentContext (4.2), append to the accumulator".  The attachment step is
missing from the `agent.py` under `src/` (its constructor does not even take
the `deployment_parser` argument that `analyze.py:547` passes), so the
enriched per-finding step is modelled from the spec's words: the deep
result's `deployment_context` is set to the resolver's answer for the
finding's `file_path`. -/
def attach_deployment_context (m : DeployModel) (analysis : FunctionAnalysis)
    (finding : AstGrepFinding) : FunctionAnalysis :=
  { analysis with deployment_context := get_deployment_context m finding.file_path }

/-- Modelled from the spec: §4.4's batch triage loop with the
DeploymentContext-attachment step present (see `attach_deployment_context`);
identical to `triage_all_findings` except that each deep result is enriched
from the finding's file path before being appended. -/
def triage_all_findings_enriched (m : DeployModel) (fast : FastOracle) (deep : DeepOracle)
    (code_reader : CodeReader) (max_real_handlers : Option Int) :
    List AstGrepFinding → Nat → TriageResult
  | [], rc => { real_handler_count := rc }
  | finding :: rest, rc =>
    if quotaReached max_real_handlers rc then { real_handler_count := rc }
    else
      match code_reader finding.file_path finding.line_number with
      | none => triage_all_findings_enriched m fast deep code_reader max_real_handlers rest rc
      | some code_context =>
        if code_context = "" then
          triage_all_findings_enriched m fast deep code_reader max_real_handlers rest rc
        else if fast_check_false_positive fast finding code_context then
          let r := triage_all_findings_enriched m fast deep code_reader max_real_handlers rest rc
          { r with fast_filtered_count := r.fast_filtered_count + 1 }
        else
          match deep finding code_context with
          | .error _ =>
            triage_all_findings_enriched m fast deep code_reader max_real_handlers rest rc
          | .ok analysis =>
            let enriched := attach_deployment_context m analysis finding
            let rc' := if enriched.risk_level ≠ RiskLevel.info then rc + 1 else rc
            let r := triage_all_findings_enriched m fast deep code_reader max_real_handlers rest rc'
            { r with analyses := enriched :: r.analyses }

/-! ### Prioritization (`agent.py:157-220`) -/

/-- The `risk_order` dict of `prioritize_findings` (`agent.py:170-176`). -/
def riskOrder : RiskLevel → Nat
  | .critical => 0
  | .high => 1
  | .medium => 2
  | .low => 3
  | .info => 4

/-- Comparison induced by `key=lambda x: risk_order[x.risk_level]`. -/
def riskLE (a b : FunctionAnalysis) : Prop :=
  riskOrder a.risk_level ≤ riskOrder b.risk_level

instance : DecidableRel riskLE := fun _ _ => Nat.decLe _ _

instance : IsTotal FunctionAnalysis riskLE := ⟨fun _ _ => Nat.le_total _ _⟩

instance : IsTrans FunctionAnalysis riskLE := ⟨fun _ _ _ => Nat.le_trans⟩

/-- `SecurityTriageAgent.prioritize_findings` (`agent.py:157-220`).  Python's
`sorted` is the (unique) stable sort by the key, embedded as insertion sort
on `riskLE`; the narrative call `self.summary_agent.run(summary_prompt)` is
an external tier whose structured output is the `summary_result` parameter —
the source keeps only its `summary` and `recommendations`, overriding every
other field with locally computed values. -/
def prioritize_findings (summary_result : PrioritizedFindings)
    (analyses : List FunctionAnalysis) : PrioritizedFindings :=
  let sorted_analyses := List.insertionSort riskLE analyses
  let high_priority_count :=
    analyses.countP (fun a => a.risk_level == RiskLevel.critical
      || a.risk_level == RiskLevel.high)
  { total_functions_analyzed := analyses.length
    high_priority_count := high_priority_count
    findings := sorted_analyses
    summary := summary_result.summary
    recommendations := summary_result.recommendations }

/-! ### Finding deduplication (`analyze.py:494-511`) -/

/-- `location_key = f"{finding.file_path}:{finding.line_number}"` (`analyze.py:500`). -/
def location_key (finding : AstGrepFinding) : String :=
  finding.file_path ++ ":" ++ pyStrInt finding.line_number

/-- The `(file_path, line)` identity the spec talks about. -/
def pairKey (finding : AstGrepFinding) : String × Int :=
  (finding.file_path, finding.line_number)

/-- The dedup loop of `analyze.main` (`analyze.py:495-505`): threads the
`seen_locations` set (modelled as the list of seen keys) and returns
`(unique_findings, duplicates_removed)`. -/
def dedupAux : List AstGrepFinding → List String → List AstGrepFinding × Nat
  | [], _ => ([], 0)
  | finding :: rest, seen =>
    if seen.contains (location_key finding) then
      let r := dedupAux rest seen
      (r.1, r.2 + 1)
    else
      let r := dedupAux rest (location_key finding :: seen)
      (finding :: r.1, r.2)

/-- Deduplication as run by `analyze.main` starting from an empty seen-set. -/
def dedup_findings (findings : List AstGrepFinding) : List AstGrepFinding × Nat :=
  dedupAux findings []

/-! ## Theorems -/

/-- Batch triage depends on `max_real_handlers` only through the guard. -/
theorem triage_all_findings_quota_congr (fast : FastOracle) (deep : DeepOracle)
    (code_reader : CodeReader) {m1 m2 : Option Int}
    (h : ∀ rc, quotaReached m1 rc = quotaReached m2 rc) :
    ∀ (findings : List AstGrepFinding) (rc : Nat),
      triage_all_findings fast deep code_reader m1 findings rc =
        triage_all_findings fast deep code_reader m2 findings rc := by
  intro findings
  induction findings with
  | nil => intro rc; rfl
  | cons f rest ih =>
    intro rc
    simp only [triage_all_findings, h rc]
    by_cases hq : quotaReached m2 rc = true
    · simp [hq]
    · simp only [Bool.not_eq_true] at hq
      simp only [hq, Bool.false_eq_true, if_false]
      cases code_reader f.file_path f.line_number with
      | none => exact ih rc
      | some ctx =>
        by_cases hctx : ctx = ""
        · simp [hctx, ih rc]
        · simp only [hctx, if_false]
          by_cases hfp : fast_check_false_positive fast f ctx = true
          · simp [hfp, ih rc]
          · simp only [Bool.not_eq_true] at hfp
            simp only [hfp, Bool.false_eq_true, if_false]
            cases deep f ctx with
            | error e => exact ih rc
            | ok fa => simp [ih]

/-- Streaming triage depends on `max_real_handlers` only through the guard. -/
theorem triage_streaming_quota_congr (fast : FastOracle) (deep : DeepOracle)
    (code_reader : CodeReader) {m1 m2 : Option Int}
    (h : ∀ rc, quotaReached m1 rc = quotaReached m2 rc) :
    ∀ (findings : List AstGrepFinding) (rc : Nat),
      triage_all_findings_streaming fast deep code_reader m1 findings rc =
        triage_all_findings_streaming fast deep code_reader m2 findings rc := by
  intro findings
  induction findings with
  | nil => intro rc; rfl
  | cons f rest ih =>
    intro rc
    simp only [triage_all_findings_streaming, h rc]
    by_cases hq : quotaReached m2 rc = true
    · simp [hq]
    · simp only [Bool.not_eq_true] at hq
      simp only [hq, Bool.false_eq_true, if_false]
      cases code_reader f.file_path f.line_number with
      | none => exact ih rc
      | some ctx =>
        by_cases hctx : ctx = ""
        · simp [hctx, ih rc]
        · simp only [hctx, if_false]
          by_cases hfp : fast_check_false_positive fast f ctx = true
          · simp [hfp, ih rc]
          · simp only [Bool.not_eq_true] at hfp
            simp only [hfp, Bool.false_eq_true, if_false]
            cases deep f ctx with
            | error e => exact ih rc
            | ok fa => simp [ih]

/-- C10: with `max_real_handlers = 0` both pipelines behave exactly as with
`None` — the guard `if max_real_handlers and ...` is never taken because the
Python `int` `0` is falsy, so a zero quota means "unlimited" and every input
finding is processed as usual. -/
theorem quota_zero_means_unlimited (fast : FastOracle) (deep : DeepOracle)
    (code_reader : CodeReader) (findings : List AstGrepFinding) (rc : Nat) :
    triage_all_findings fast deep code_reader (some 0) findings rc =
      triage_all_findings fast deep code_reader none findings rc ∧
    triage_all_findings_streaming fast deep code_reader (some 0) findings rc =
      triage_all_findings_streaming fast deep code_reader none findings rc := by
  have h : ∀ rc, quotaReached (some 0) rc = quotaReached none rc := by
    intro rc; simp [quotaReached]
  exact ⟨triage_all_findings_quota_congr fast deep code_reader h findings rc,
    triage_streaming_quota_congr fast deep code_reader h findings rc⟩

/-- C4: the batch pipeline and the streaming pipeline, fed the same findings,
code reader, classifier oracles and quota, make identical per-finding
decisions: the streamed analyses are exactly the batch accumulator (same
sequence), the fast-filtered and real-handler counters agree, and the
streaming `total_analyzed` (deep-analyzed) counter equals the length of the
batch accumulator. -/
theorem streaming_refines_batch (fast : FastOracle) (deep : DeepOracle)
    (code_reader : CodeReader) (max_real_handlers : Option Int)
    (findings : List AstGrepFinding) (rc : Nat) :
    (triage_all_findings_streaming fast deep code_reader max_real_handlers findings rc).yielded =
      (triage_all_findings fast deep code_reader max_real_handlers findings rc).analyses ∧
    (triage_all_findings_streaming fast deep code_reader max_real_handlers findings
        rc).fast_filtered_count =
      (triage_all_findings fast deep code_reader max_real_handlers findings
        rc).fast_filtered_count ∧
    (triage_all_findings_streaming fast deep code_reader max_real_handlers findings
        rc).real_handler_count =
      (triage_all_findings fast deep code_reader max_real_handlers findings
        rc).real_handler_count ∧
    (triage_all_findings_streaming fast deep code_reader max_real_handlers findings
        rc).total_analyzed =
      (triage_all_findings fast deep code_reader max_real_handlers findings
        rc).analyses.length := by
  induction findings generalizing rc with
  | nil => exact ⟨rfl, rfl, rfl, rfl⟩
  | cons f rest ih =>
    simp only [triage_all_findings, triage_all_findings_streaming]
    by_cases hq : quotaReached max_real_handlers rc = true
    · simp [hq]
    · simp only [Bool.not_eq_true] at hq
      simp only [hq, Bool.false_eq_true, if_false]
      cases code_reader f.file_path f.line_number with
      | none => exact ih rc
      | some ctx =>
        by_cases hctx : ctx = ""
        · simpa [hctx] using ih rc
        · simp only [hctx, if_false]
          by_cases hfp : fast_check_false_positive fast f ctx = true
          · simpa [hfp] using ih rc
          · simp only [Bool.not_eq_true] at hfp
            simp only [hfp, Bool.false_eq_true, if_false]
            cases deep f ctx with
            | error e => exact ih rc
            | ok fa =>
              by_cases hinfo : fa.risk_level = RiskLevel.info
              · obtain ⟨h1, h2, h3, h4⟩ := ih rc
                simp [hinfo, h1, h2, h3, h4]
              · obtain ⟨h1, h2, h3, h4⟩ := ih (rc + 1)
                simp [hinfo, h1, h2, h3, h4]

/-- C9: the fast tier fails open.  (i) When the fast-filter call raises, the
finding is treated as "not a confirmed false positive"; (ii) the fast filter
reports a false positive only on a successful response whose
stripped/uppercased text contains the `FALSE_POSITIVE`/`FALSE` marker; and
(iii) in the batch pipeline a finding whose fast-filter call raised proceeds
to deep triage: with usable context and an open quota, the deep oracle's
successful result is appended to the accumulator exactly as if the fast
filter had answered REAL. -/
theorem fast_tier_fails_open (fast : FastOracle) (deep : DeepOracle)
    (code_reader : CodeReader) (max_real_handlers : Option Int)
    (f : AstGrepFinding) (rest : List AstGrepFinding) (rc : Nat) (ctx : String) :
    (fast f ctx = Except.error () → fast_check_false_positive fast f ctx = false) ∧
    (fast_check_false_positive fast f ctx = true →
      ∃ resp, fast f ctx = Except.ok resp ∧
        (pyHas (pyUpper (pyStrip resp)) "FALSE_POSITIVE"
          || pyHas (pyUpper (pyStrip resp)) "FALSE") = true) ∧
    (quotaReached max_real_handlers rc = false →
      code_reader f.file_path f.line_number = some ctx →
      ctx ≠ "" →
      fast f ctx = Except.error () →
      ∀ fa, deep f ctx = Except.ok fa →
        triage_all_findings fast deep code_reader max_real_handlers (f :: rest) rc =
          { triage_all_findings fast deep code_reader max_real_handlers rest
              (if fa.risk_level ≠ RiskLevel.info then rc + 1 else rc) with
            analyses := fa ::
              (triage_all_findings fast deep code_reader max_real_handlers rest
                (if fa.risk_level ≠ RiskLevel.info then rc + 1 else rc)).analyses }) := by
  refine ⟨?_, ?_, ?_⟩
  · intro herr
    simp [fast_check_false_positive, herr]
  · intro htrue
    cases hfast : fast f ctx with
    | error e =>
      rw [fast_check_false_positive, hfast] at htrue
      exact absurd htrue (by simp)
    | ok resp =>
      rw [fast_check_false_positive, hfast] at htrue
      exact ⟨resp, rfl, htrue⟩
  · intro hq hread hctx herr fa hdeep
    have hfp : fast_check_false_positive fast f ctx = false := by
      simp [fast_check_false_positive, herr]
    simp [triage_all_findings, hq, hread, hctx, hfp, hdeep]

/-- The final `real_handler_count` never exceeds a positive quota `N`,
provided the count starts at or below `N`. -/
theorem triage_real_handler_bound (fast : FastOracle) (deep : DeepOracle)
    (code_reader : CodeReader) (N : Int) (hN : 0 < N) :
    ∀ (findings : List AstGrepFinding) (rc : Nat), (rc : Int) ≤ N →
      ((triage_all_findings fast deep code_reader (some N) findings
        rc).real_handler_count : Int) ≤ N := by
  intro findings
  induction findings with
  | nil => intro rc h; exact h
  | cons f rest ih =>
    intro rc h
    simp only [triage_all_findings]
    by_cases hq : quotaReached (some N) rc = true
    · simpa [hq] using h
    · simp only [Bool.not_eq_true] at hq
      have hrc : (rc : Int) < N := by
        by_contra hge
        push_neg at hge
        have htrue : quotaReached (some N) rc = true := by
          unfold quotaReached
          have h1 : (N == 0) = false := by simp; omega
          simp [h1, hge]
        rw [htrue] at hq
        simp at hq
      simp only [hq, Bool.false_eq_true, if_false]
      cases code_reader f.file_path f.line_number with
      | none => exact ih rc h
      | some ctx =>
        by_cases hctx : ctx = ""
        · simpa [hctx] using ih rc h
        · simp only [hctx, if_false]
          by_cases hfp : fast_check_false_positive fast f ctx = true
          · simpa [hfp] using ih rc h
          · simp only [Bool.not_eq_true] at hfp
            simp only [hfp, Bool.false_eq_true, if_false]
            cases deep f ctx with
            | error e => exact ih rc h
            | ok fa =>
              by_cases hinfo : fa.risk_level = RiskLevel.info
              · simpa [hinfo] using ih rc h
              · simpa [hinfo] using ih (rc + 1) (by push_cast; omega)

/-- The batch loop's result always equals its result on the prefix of
findings it actually admitted; if that prefix is proper (the loop broke),
the guard held at the break point, i.e. the final count already satisfies
the quota comparison. -/
theorem triage_stops_on_prefix (fast : FastOracle) (deep : DeepOracle)
    (code_reader : CodeReader) (max_real_handlers : Option Int) :
    ∀ (findings : List AstGrepFinding) (rc : Nat),
      ∃ k ≤ findings.length,
        triage_all_findings fast deep code_reader max_real_handlers findings rc =
          triage_all_findings fast deep code_reader max_real_handlers (findings.take k) rc ∧
        (k < findings.length →
          quotaReached max_real_handlers
            (triage_all_findings fast deep code_reader max_real_handlers findings
              rc).real_handler_count = true) := by
  intro findings
  induction findings with
  | nil => intro rc; exact ⟨0, Nat.le_refl _, rfl, fun h => absurd h (by simp)⟩
  | cons f rest ih =>
    intro rc
    by_cases hq : quotaReached max_real_handlers rc = true
    · refine ⟨0, by simp, by simp [triage_all_findings, hq], ?_⟩
      intro _
      have : (triage_all_findings fast deep code_reader max_real_handlers (f :: rest)
          rc).real_handler_count = rc := by
        simp [triage_all_findings, hq]
      rw [this]; exact hq
    · simp only [Bool.not_eq_true] at hq
      -- the head finding is processed identically on both sides; recurse
      cases hread : code_reader f.file_path f.line_number with
      | none =>
        obtain ⟨k, hk, heq, hbrk⟩ := ih rc
        refine ⟨k + 1, by simpa using Nat.succ_le_succ hk, ?_, ?_⟩
        · simp [triage_all_findings, hq, hread, heq]
        · intro hlt
          have := hbrk (by simpa using Nat.lt_of_succ_lt_succ hlt)
          simpa [triage_all_findings, hq, hread] using this
      | some ctx =>
        by_cases hctx : ctx = ""
        · obtain ⟨k, hk, heq, hbrk⟩ := ih rc
          refine ⟨k + 1, by simpa using Nat.succ_le_succ hk, ?_, ?_⟩
          · simp [triage_all_findings, hq, hread, hctx, heq]
          · intro hlt
            have := hbrk (by simpa using Nat.lt_of_succ_lt_succ hlt)
            simpa [triage_all_findings, hq, hread, hctx] using this
        · by_cases hfp : fast_check_false_positive fast f ctx = true
          · obtain ⟨k, hk, heq, hbrk⟩ := ih rc
            refine ⟨k + 1, by simpa using Nat.succ_le_succ hk, ?_, ?_⟩
            · simp [triage_all_findings, hq, hread, hctx, hfp, heq]
            · intro hlt
              have := hbrk (by simpa using Nat.lt_of_succ_lt_succ hlt)
              simpa [triage_all_findings, hq, hread, hctx, hfp] using this
          · simp only [Bool.not_eq_true] at hfp
            cases hdeep : deep f ctx with
            | error e =>
              obtain ⟨k, hk, heq, hbrk⟩ := ih rc
              refine ⟨k + 1, by simpa using Nat.succ_le_succ hk, ?_, ?_⟩
              · simp [triage_all_findings, hq, hread, hctx, hfp, hdeep, heq]
              · intro hlt
                have := hbrk (by simpa using Nat.lt_of_succ_lt_succ hlt)
                simpa [triage_all_findings, hq, hread, hctx, hfp, hdeep] using this
            | ok fa =>
              obtain ⟨k, hk, heq, hbrk⟩ :=
                ih (if fa.risk_level ≠ RiskLevel.info then rc + 1 else rc)
              refine ⟨k + 1, by simpa using Nat.succ_le_succ hk, ?_, ?_⟩
              · simp only [triage_all_findings, hq, Bool.false_eq_true, if_false, hread,
                  hctx, hfp, hdeep, List.take_succ_cons]
                rw [heq]
              · intro hlt
                have := hbrk (by simpa using Nat.lt_of_succ_lt_succ hlt)
                simp only [triage_all_findings, hq, Bool.false_eq_true, if_false, hread,
                  hctx, hfp, hdeep] at this ⊢
                exact this

/-- C2: with a configured quota `max_real_handlers = N > 0`, (i) the final
real-handler count never exceeds `N`; (ii) the run's entire result equals the
result on some prefix of the findings — findings past the stopping point
contribute to no accumulator and no counter — and if that prefix is proper
the run stopped exactly because `N` non-INFO analyses existed; (iii) a deep
analysis with `risk_level = INFO` is still appended to the accumulator
(consuming the deep call) but the quota counter is threaded on unchanged. -/
theorem quota_stops_admission (fast : FastOracle) (deep : DeepOracle)
    (code_reader : CodeReader) (N : Int) (findings : List AstGrepFinding)
    (hN : 0 < N) :
    (((triage_all_findings fast deep code_reader (some N) findings
        0).real_handler_count : Int) ≤ N) ∧
    (∃ k ≤ findings.length,
      triage_all_findings fast deep code_reader (some N) findings 0 =
        triage_all_findings fast deep code_reader (some N) (findings.take k) 0 ∧
      (k < findings.length →
        ((triage_all_findings fast deep code_reader (some N) findings
          0).real_handler_count : Int) = N)) ∧
    (∀ (f : AstGrepFinding) (rest : List AstGrepFinding) (rc : Nat) (ctx : String)
        (fa : FunctionAnalysis),
      quotaReached (some N) rc = false →
      code_reader f.file_path f.line_number = some ctx →
      ctx ≠ "" →
      fast_check_false_positive fast f ctx = false →
      deep f ctx = Except.ok fa →
      fa.risk_level = RiskLevel.info →
      triage_all_findings fast deep code_reader (some N) (f :: rest) rc =
        { triage_all_findings fast deep code_reader (some N) rest rc with
          analyses :=
            fa :: (triage_all_findings fast deep code_reader (some N) rest rc).analyses }) := by
  have hbound := triage_real_handler_bound fast deep code_reader N hN findings 0
    (by exact_mod_cast Int.le_of_lt hN)
  refine ⟨hbound, ?_, ?_⟩
  · obtain ⟨k, hk, heq, hbrk⟩ :=
      triage_stops_on_prefix fast deep code_reader (some N) findings 0
    refine ⟨k, hk, heq, ?_⟩
    intro hlt
    have hq := hbrk hlt
    unfold quotaReached at hq
    simp only [Bool.and_eq_true, Bool.not_eq_eq_eq_not, Bool.not_false, beq_eq_false_iff_ne,
      decide_eq_true_eq] at hq
    omega
  · intro f rest rc ctx fa hq hread hctx hfp hdeep hinfo
    simp [triage_all_findings, hq, hread, hctx, hfp, hdeep, hinfo]

/-! ### Concrete fixtures used by the witnesses -/

/-- A concrete finding. -/
def sampleFinding (path : String) (line : Int) : AstGrepFinding :=
  { file_path := path, line_number := line, column := 1, rule_id := "rule",
    message := "msg", code_snippet := "snippet", framework := "fastapi",
    language := "python" }

/-- A concrete deep-triage result at a chosen risk level. -/
def sampleAnalysis (risk : RiskLevel) : FunctionAnalysis :=
  { function_name := "handler",
    location := { file_path := "app/api/users.py", line_number := 10 },
    framework := "fastapi", language := "python",
    accepts_unauthenticated_input := true, risk_level := risk,
    reasoning := "sample" }

/-- A code reader that always returns usable context. -/
def readerConst : CodeReader := fun _ _ => some "code"

/-- A fast filter that always answers REAL. -/
def fastReal : FastOracle := fun _ _ => Except.ok "REAL"

/-- A fast filter whose call always raises. -/
def fastFail : FastOracle := fun _ _ => Except.error ()

/-- A deep tier that always returns `sampleAnalysis risk`. -/
def deepConst (risk : RiskLevel) : DeepOracle :=
  fun _ _ => Except.ok (sampleAnalysis risk)

/-- Witness for C9: with a raising fast filter, the check returns `false` and
the (sole) finding's deep HIGH analysis lands in the accumulator. -/
theorem fast_tier_fails_open_witness :
    fast_check_false_positive fastFail (sampleFinding "a.py" 1) "code" = false ∧
    triage_all_findings fastFail (deepConst RiskLevel.high) readerConst none
        [sampleFinding "a.py" 1] 0 =
      { analyses := [sampleAnalysis RiskLevel.high], fast_filtered_count := 0,
        real_handler_count := 1 } := by
  constructor
  · exact (fast_tier_fails_open fastFail (deepConst RiskLevel.high) readerConst none
      (sampleFinding "a.py" 1) [] 0 "code").1 rfl
  · have h := (fast_tier_fails_open fastFail (deepConst RiskLevel.high) readerConst none
      (sampleFinding "a.py" 1) [] 0 "code").2.2 rfl rfl (by decide) rfl
      (sampleAnalysis RiskLevel.high) rfl
    exact h.trans (by decide)

/-- Witness for C2: quota `N = 1` over two findings that both deep-classify
HIGH — the bound holds at the concrete run (whose count is exactly 1). -/
theorem quota_stops_admission_witness :
    (0 : Int) < 1 ∧
    (((triage_all_findings fastReal (deepConst RiskLevel.high) readerConst (some 1)
        [sampleFinding "a.py" 1, sampleFinding "b.py" 2] 0).real_handler_count : Int) ≤ 1) :=
  ⟨by decide,
    (quota_stops_admission fastReal (deepConst RiskLevel.high) readerConst 1
      [sampleFinding "a.py" 1, sampleFinding "b.py" 2] (by decide)).1⟩

/-- C1: in the spec-modelled enriched pipeline, every analysis in the
accumulator arose from some input finding that had usable context and passed
the fast filter, whose deep classification succeeded, and it is exactly the
deep result with the DeploymentContext resolved from that finding's
`file_path` attached before being appended — so accumulated analyses carry
deployment context whenever the resolver finds a match for the finding's
path. -/
theorem enriched_analyses_carry_context (m : DeployModel) (fast : FastOracle)
    (deep : DeepOracle) (code_reader : CodeReader) (max_real_handlers : Option Int) :
    ∀ (findings : List AstGrepFinding) (rc : Nat) (a : FunctionAnalysis),
      a ∈ (triage_all_findings_enriched m fast deep code_reader max_real_handlers
        findings rc).analyses →
      ∃ f ∈ findings, ∃ ctx fa,
        code_reader f.file_path f.line_number = some ctx ∧ ctx ≠ "" ∧
        fast_check_false_positive fast f ctx = false ∧
        deep f ctx = Except.ok fa ∧
        a = attach_deployment_context m fa f ∧
        a.deployment_context = get_deployment_context m f.file_path := by
  intro findings
  induction findings with
  | nil => intro rc a ha; simp [triage_all_findings_enriched] at ha
  | cons f0 rest ih =>
    intro rc a ha
    simp only [triage_all_findings_enriched] at ha
    by_cases hq : quotaReached max_real_handlers rc = true
    · simp [hq] at ha
    · simp only [Bool.not_eq_true] at hq
      simp only [hq, Bool.false_eq_true, if_false] at ha
      cases hread : code_reader f0.file_path f0.line_number with
      | none =>
        rw [hread] at ha
        obtain ⟨f, hf, rest_h⟩ := ih rc a ha
        exact ⟨f, List.mem_cons_of_mem _ hf, rest_h⟩
      | some ctx =>
        rw [hread] at ha
        by_cases hctx : ctx = ""
        · simp only [hctx, if_true, if_pos rfl] at ha
          obtain ⟨f, hf, rest_h⟩ := ih rc a (by simpa using ha)
          exact ⟨f, List.mem_cons_of_mem _ hf, rest_h⟩
        · simp only [hctx, if_false] at ha
          by_cases hfp : fast_check_false_positive fast f0 ctx = true
          · simp only [hfp, if_true] at ha
            obtain ⟨f, hf, rest_h⟩ := ih rc a (by simpa using ha)
            exact ⟨f, List.mem_cons_of_mem _ hf, rest_h⟩
          · simp only [Bool.not_eq_true] at hfp
            simp only [hfp, Bool.false_eq_true, if_false] at ha
            cases hdeep : deep f0 ctx with
            | error e =>
              rw [hdeep] at ha
              obtain ⟨f, hf, rest_h⟩ := ih rc a ha
              exact ⟨f, List.mem_cons_of_mem _ hf, rest_h⟩
            | ok fa =>
              rw [hdeep] at ha
              simp only [List.mem_cons] at ha
              rcases ha with heq | ha
              · refine ⟨f0, List.mem_cons_self _ _, ctx, fa, hread, hctx, hfp, hdeep, heq, ?_⟩
                rw [heq]
                rfl
              · obtain ⟨f, hf, rest_h⟩ := ih _ a ha
                exact ⟨f, List.mem_cons_of_mem _ hf, rest_h⟩

/-- The two-service deployment model of the spec's longest-match example
(§8), also used as the enrichment fixture. -/
def mAppApi : DeployModel :=
  { services :=
      [("app-service", { name := some "app-service", repository_paths := ["app/"] }),
       ("api-service", { name := some "api-service", repository_paths := ["app/api/"] })] }

/-- The finding used by the C1 witness. -/
def wFind : AstGrepFinding := sampleFinding "app/api/users.py" 10

/-- The enriched analysis the C1 witness locates in the accumulator. -/
def wEnriched : FunctionAnalysis :=
  attach_deployment_context mAppApi (sampleAnalysis RiskLevel.high) wFind

/-- Witness for C1: a concrete enriched run containing `wEnriched`, whose
provenance the theorem then exhibits. -/
theorem enriched_analyses_carry_context_witness :
    wEnriched ∈ (triage_all_findings_enriched mAppApi fastReal
      (deepConst RiskLevel.high) readerConst none [wFind] 0).analyses ∧
    ∃ f ∈ [wFind], ∃ ctx fa,
      readerConst f.file_path f.line_number = some ctx ∧ ctx ≠ "" ∧
      fast_check_false_positive fastReal f ctx = false ∧
      deepConst RiskLevel.high f ctx = Except.ok fa ∧
      wEnriched = attach_deployment_context mAppApi fa f ∧
      wEnriched.deployment_context = get_deployment_context mAppApi f.file_path :=
  ⟨by decide,
    enriched_analyses_carry_context mAppApi fastReal (deepConst RiskLevel.high)
      readerConst none [wFind] 0 wEnriched (by decide)⟩

/-- Inserting into a list commutes with filtering on a fixed risk rank:
elements the insertion walks past have strictly smaller rank than the
inserted one, so they never share its rank. -/
theorem filter_rank_orderedInsert (k : Nat) (a : FunctionAnalysis)
    (l : List FunctionAnalysis) :
    (List.orderedInsert riskLE a l).filter (fun x => riskOrder x.risk_level == k) =
      (a :: l).filter (fun x => riskOrder x.risk_level == k) := by
  induction l with
  | nil => rfl
  | cons b t ihl =>
    by_cases hab : riskLE a b
    · rw [List.orderedInsert, if_pos hab]
    · rw [List.orderedInsert, if_neg hab]
      have hba : riskOrder b.risk_level < riskOrder a.risk_level := by
        simpa [riskLE, not_le] using hab
      by_cases hpa : (riskOrder a.risk_level == k) = true
      · by_cases hpb : (riskOrder b.risk_level == k) = true
        · exfalso
          simp only [beq_iff_eq] at hpa hpb
          omega
        · simp only [List.filter, hpa, hpb, ihl]
      · by_cases hpb : (riskOrder b.risk_level == k) = true
        · simp only [List.filter, hpa, hpb, ihl]
        · simp only [List.filter, hpa, hpb, ihl]

/-- Insertion sort on `riskLE` is stable: it preserves each rank's sublist. -/
theorem filter_rank_insertionSort (k : Nat) (l : List FunctionAnalysis) :
    (List.insertionSort riskLE l).filter (fun x => riskOrder x.risk_level == k) =
      l.filter (fun x => riskOrder x.risk_level == k) := by
  induction l with
  | nil => rfl
  | cons a t ihl =>
    rw [List.insertionSort, filter_rank_orderedInsert]
    simp only [List.filter]
    cases hpa : (riskOrder a.risk_level == k) <;> simp [hpa, ihl]

/-- C5: `prioritize_findings` returns the input analyses stably sorted by
risk level in the fixed order CRITICAL < HIGH < MEDIUM < LOW < INFO: the
output is a permutation of the input, is sorted by (non-decreasing)
`riskOrder` rank, and within each rank the input order is preserved. -/
theorem prioritize_findings_stable_sort (summary_result : PrioritizedFindings)
    (analyses : List FunctionAnalysis) :
    (prioritize_findings summary_result analyses).findings.Perm analyses ∧
    List.Sorted riskLE (prioritize_findings summary_result analyses).findings ∧
    (∀ k : Nat,
      (prioritize_findings summary_result analyses).findings.filter
          (fun x => riskOrder x.risk_level == k) =
        analyses.filter (fun x => riskOrder x.risk_level == k)) := by
  refine ⟨List.perm_insertionSort riskLE analyses, List.sorted_insertionSort riskLE analyses,
    fun k => filter_rank_insertionSort k analyses⟩

/-- C8: the narrative summary tier can never alter ordering or counts — the
returned `findings`, `total_functions_analyzed` and `high_priority_count`
are the locally computed deterministic values (the high-priority count being
the number of CRITICAL-or-HIGH analyses, invariant under permutation of the
input), and two runs differing only in the narrative tier's output differ at
most in `summary` and `recommendations`. -/
theorem narrative_tier_cannot_alter_counts (s1 s2 : PrioritizedFindings)
    (l l' : List FunctionAnalysis) (hperm : l.Perm l') :
    (prioritize_findings s1 l).total_functions_analyzed = l.length ∧
    (prioritize_findings s1 l).high_priority_count =
      l.countP (fun a => a.risk_level == RiskLevel.critical
        || a.risk_level == RiskLevel.high) ∧
    (prioritize_findings s1 l).high_priority_count =
      (prioritize_findings s2 l').high_priority_count ∧
    (prioritize_findings s1 l).findings = (prioritize_findings s2 l).findings ∧
    (prioritize_findings s1 l).total_functions_analyzed =
      (prioritize_findings s2 l).total_functions_analyzed ∧
    (prioritize_findings s1 l).summary = s1.summary ∧
    (prioritize_findings s1 l).recommendations = s1.recommendations := by
  refine ⟨rfl, rfl, ?_, rfl, rfl, rfl, rfl⟩
  exact hperm.countP_eq _

/-- Witness for C8: a two-element list against its reversal, two different
narrative outputs — the high-priority counts coincide. -/
theorem narrative_tier_cannot_alter_counts_witness :
    (prioritize_findings
        { total_functions_analyzed := 7, high_priority_count := 7, findings := [],
          summary := "narrative one", recommendations := ["a"] }
        [sampleAnalysis RiskLevel.high, sampleAnalysis RiskLevel.info]).high_priority_count =
      (prioritize_findings
        { total_functions_analyzed := 9, high_priority_count := 9, findings := [],
          summary := "narrative two", recommendations := ["b"] }
        [sampleAnalysis RiskLevel.info, sampleAnalysis RiskLevel.high]).high_priority_count :=
  (narrative_tier_cannot_alter_counts
    { total_functions_analyzed := 7, high_priority_count := 7, findings := [],
      summary := "narrative one", recommendations := ["a"] }
    { total_functions_analyzed := 9, high_priority_count := 9, findings := [],
      summary := "narrative two", recommendations := ["b"] }
    [sampleAnalysis RiskLevel.high, sampleAnalysis RiskLevel.info]
    [sampleAnalysis RiskLevel.info, sampleAnalysis RiskLevel.high]
    (by decide)).2.2.1


/-! ### Longest-match analysis of the resolver (C3) -/

/-- One update of the resolver's `(matched_service, best_match_length)` pair
by a matching candidate, as performed by each strategy branch
(`deployment_parser.py:80-101`): replace on a strictly greater length. -/
def updBest (st : Option (String × SvcInfo) × Nat) (c : (String × SvcInfo) × Nat) :
    Option (String × SvcInfo) × Nat :=
  if c.2 > st.2 then (some c.1, c.2) else st

/-- The matching `(service, normalized-fragment-length)` candidates
contributed by one service's `repository_paths`, in declaration order. -/
def fragCands (npath : String) (parts : List String) (name : String) (info : SvcInfo) :
    List String → List ((String × SvcInfo) × Nat)
  | [] => []
  | fr :: rest =>
    if fragMatches npath parts (normFrag fr) then
      ((name, info), (normFrag fr).length) :: fragCands npath parts name info rest
    else fragCands npath parts name info rest

/-- All matching candidates in scan order: services in declaration order,
fragments in declaration order. -/
def svcCands (npath : String) (parts : List String) :
    List (String × SvcInfo) → List ((String × SvcInfo) × Nat)
  | [] => []
  | (name, info) :: rest =>
    fragCands npath parts name info info.repository_paths ++ svcCands npath parts rest

/-- The fragment loop is the fold of `updBest` over the service's matching
candidates. -/
theorem scanFrags_eq_foldl (npath : String) (parts : List String) (name : String)
    (info : SvcInfo) :
    ∀ (frags : List String) (st : Option (String × SvcInfo) × Nat),
      scanFrags npath parts name info frags st =
        List.foldl updBest st (fragCands npath parts name info frags) := by
  intro frags
  induction frags with
  | nil => intro st; rfl
  | cons fr rest ih =>
    intro st
    obtain ⟨b, bl⟩ := st
    by_cases hm : fragMatches npath parts (normFrag fr) = true
    · by_cases hl : (normFrag fr).length > bl
      · have hupd : updBest (b, bl) ((name, info), (normFrag fr).length) =
            (some (name, info), (normFrag fr).length) := by
          simp [updBest, hl]
        simp [scanFrags, fragCands, hm, hl, ih, hupd]
      · have hupd : updBest (b, bl) ((name, info), (normFrag fr).length) = (b, bl) := by
          simp [updBest, hl]
        simp [scanFrags, fragCands, hm, hl, ih, hupd]
    · simp only [Bool.not_eq_true] at hm
      simp [scanFrags, fragCands, hm, ih]

/-- The service loop is the fold of `updBest` over all candidates in scan
order. -/
theorem scanServices_eq_foldl (npath : String) (parts : List String) :
    ∀ (svcs : List (String × SvcInfo)) (st : Option (String × SvcInfo) × Nat),
      scanServices npath parts svcs st =
        List.foldl updBest st (svcCands npath parts svcs) := by
  intro svcs
  induction svcs with
  | nil => intro st; rfl
  | cons s rest ih =>
    intro st
    obtain ⟨n, i⟩ := s
    simp only [scanServices, svcCands, List.foldl_append, ih, scanFrags_eq_foldl]

/-- The best length never decreases under one update. -/
theorem updBest_len_le (st : Option (String × SvcInfo) × Nat)
    (c : (String × SvcInfo) × Nat) : st.2 ≤ (updBest st c).2 := by
  unfold updBest; split <;> omega

/-- The best length never decreases along the fold. -/
theorem foldl_updBest_le (cs : List ((String × SvcInfo) × Nat)) :
    ∀ st, st.2 ≤ (List.foldl updBest st cs).2 := by
  induction cs with
  | nil => intro st; exact Nat.le_refl _
  | cons c rest ih =>
    intro st
    exact Nat.le_trans (updBest_len_le st c) (ih (updBest st c))

/-- Every candidate's length is bounded by the final best length. -/
theorem foldl_updBest_max (cs : List ((String × SvcInfo) × Nat)) :
    ∀ st, ∀ c ∈ cs, c.2 ≤ (List.foldl updBest st cs).2 := by
  induction cs with
  | nil => intro st c hc; simp at hc
  | cons c0 rest ih =>
    intro st c hc
    rcases List.mem_cons.1 hc with rfl | hc
    · refine Nat.le_trans ?_ (foldl_updBest_le rest (updBest st c))
      unfold updBest; split <;> omega
    · exact ih (updBest st c0) c hc

/-- If the best length did not move, no update fired: the state is frozen. -/
theorem foldl_updBest_frozen (cs : List ((String × SvcInfo) × Nat)) :
    ∀ st, (List.foldl updBest st cs).2 = st.2 → List.foldl updBest st cs = st := by
  induction cs with
  | nil => intro st _; rfl
  | cons c0 rest ih =>
    intro st h
    by_cases h0 : c0.2 > st.2
    · exfalso
      have h1 : (updBest st c0).2 = c0.2 := by simp [updBest, h0]
      have := foldl_updBest_le rest (updBest st c0)
      rw [h1] at this
      simp only [List.foldl_cons] at h
      omega
    · have h1 : updBest st c0 = st := by simp [updBest, h0]
      simp only [List.foldl_cons, h1] at h ⊢
      exact ih st h

/-- If the best length strictly improved, the final state is the first
candidate attaining the final best length: all candidates scanned before it
are strictly shorter. -/
theorem foldl_updBest_attainer (cs : List ((String × SvcInfo) × Nat)) :
    ∀ st, st.2 < (List.foldl updBest st cs).2 →
      ∃ pre c post, cs = pre ++ c :: post ∧
        c.2 = (List.foldl updBest st cs).2 ∧
        (List.foldl updBest st cs).1 = some c.1 ∧
        ∀ c' ∈ pre, c'.2 < (List.foldl updBest st cs).2 := by
  induction cs with
  | nil => intro st h; exact absurd h (by simp)
  | cons c0 rest ih =>
    intro st h
    by_cases h0 : c0.2 > st.2
    · have hst' : updBest st c0 = (some c0.1, c0.2) := by simp [updBest, h0]
      simp only [List.foldl_cons, hst'] at h ⊢
      by_cases heq : (List.foldl updBest (some c0.1, c0.2) rest).2 = c0.2
      · have hfr := foldl_updBest_frozen rest (some c0.1, c0.2) heq
        exact ⟨[], c0, rest, rfl, by rw [hfr], by rw [hfr], by simp⟩
      · have hle := foldl_updBest_le rest (some c0.1, c0.2)
        have hlt : c0.2 < (List.foldl updBest (some c0.1, c0.2) rest).2 := by
          simp only at hle
          omega
        obtain ⟨pre, c, post, hsplit, hlen, hfst, hpre⟩ := ih (some c0.1, c0.2) hlt
        refine ⟨c0 :: pre, c, post, by rw [hsplit, List.cons_append], hlen, hfst, ?_⟩
        intro c' hc'
        rcases List.mem_cons.1 hc' with rfl | hc'
        · exact hlt
        · exact hpre c' hc'
    · have hst' : updBest st c0 = st := by simp [updBest, h0]
      simp only [List.foldl_cons, hst'] at h ⊢
      obtain ⟨pre, c, post, hsplit, hlen, hfst, hpre⟩ := ih st h
      refine ⟨c0 :: pre, c, post, by rw [hsplit, List.cons_append], hlen, hfst, ?_⟩
      intro c' hc'
      rcases List.mem_cons.1 hc' with rfl | hc'
      · omega
      · exact hpre c' hc'

/-- The property C3 ascribes to a resolver outcome: a positive best length
`L` realized by the winning service's candidate, maximal over all candidates
of all services and strategies, with every earlier-scanned candidate
strictly shorter (so a tie goes to the first service in declaration
order). -/
def longestMatchWinner (m : DeployModel) (path : String) (name : String)
    (info : SvcInfo) (L : Nat) : Prop :=
  0 < L ∧
  (∀ c ∈ svcCands (normPath path) (pySplitSlash (normPath path)) m.services, c.2 ≤ L) ∧
  ∃ pre post,
    svcCands (normPath path) (pySplitSlash (normPath path)) m.services =
      pre ++ (((name, info) : String × SvcInfo), L) :: post ∧
    ∀ c ∈ pre, c.2 < L

/-- C3: whenever the resolver's scan selects a service, that service's
matched (normalized) fragment length is the maximum over all candidates of
all services and all three match strategies, every candidate scanned before
the winner being strictly shorter — ties keep the first service in
declaration order; in particular, with services declaring `app/` and
`app/api/`, the file `app/api/users.py` resolves to the `app/api/` service
and never to the `app/` service. -/
theorem resolver_longest_match :
    (∀ (m : DeployModel) (path : String) (name : String) (info : SvcInfo),
      (scanServices (normPath path) (pySplitSlash (normPath path)) m.services
        (none, 0)).1 = some (name, info) →
      longestMatchWinner m path name info
        (scanServices (normPath path) (pySplitSlash (normPath path)) m.services
          (none, 0)).2) ∧
    ((get_deployment_context mAppApi "app/api/users.py").map
        (fun c => c.service_name) = some "api-service" ∧
      "api-service" ≠ "app-service") := by
  constructor
  · intro m path name info h
    rw [scanServices_eq_foldl] at h
    unfold longestMatchWinner
    rw [scanServices_eq_foldl]
    have hpos : 0 < (List.foldl updBest (none, 0)
        (svcCands (normPath path) (pySplitSlash (normPath path)) m.services)).2 := by
      rcases Nat.eq_zero_or_pos (List.foldl updBest (none, 0)
          (svcCands (normPath path) (pySplitSlash (normPath path)) m.services)).2 with hz | hp
      · exfalso
        have hfr := foldl_updBest_frozen _ (none, 0) hz
        rw [hfr] at h
        exact Option.noConfusion h
      · exact hp
    obtain ⟨pre, c, post, hsplit, hlen, hfst, hpre⟩ :=
      foldl_updBest_attainer _ (none, 0) hpos
    rw [hfst] at h
    have hc1 : c.1 = (name, info) := Option.some.inj h
    refine ⟨hpos, fun c' hc' => foldl_updBest_max _ (none, 0) c' hc', pre, post, ?_, hpre⟩
    rw [← hc1, ← hlen, Prod.mk.eta]
    exact hsplit
  · exact ⟨by decide, by decide⟩

/-- Witness for C3: at the spec's two-service example the scan selects the
`app/api/` service, and the winner property holds there. -/
theorem resolver_longest_match_witness :
    (scanServices (normPath "app/api/users.py")
        (pySplitSlash (normPath "app/api/users.py")) mAppApi.services (none, 0)).1 =
      some ("api-service",
        { name := some "api-service", repository_paths := ["app/api/"] }) ∧
    longestMatchWinner mAppApi "app/api/users.py" "api-service"
      { name := some "api-service", repository_paths := ["app/api/"] }
      (scanServices (normPath "app/api/users.py")
        (pySplitSlash (normPath "app/api/users.py")) mAppApi.services (none, 0)).2 :=
  ⟨by decide,
    resolver_longest_match.1 mAppApi "app/api/users.py" "api-service"
      { name := some "api-service", repository_paths := ["app/api/"] } (by decide)⟩


/-! ### Authentication-method precedence (C6) -/

/-- Deployment model exhibiting the C6 edge case: the first communication
record from the matched service has no `auth_method`, a later one has a
usable `mtls`, and the model's global user auth method is `jwt`. -/
def mAuthCex : DeployModel :=
  { services := [("svc1", { repository_paths := ["svc1/"] })],
    communications :=
      [{ from_service := some "svc1" },
       { from_service := some "svc1", auth_method := some "mtls" }],
    user_authentication_method := some "jwt" }

/-- Counterexample to C6 as stated: the resolver matches service `svc1`, a
communication record with `from_service = svc1` and a usable `auth_method`
(`mtls`) exists, yet `authentication_method` is the global fallback `jwt`
(and not `mtls`) — because the code reads the auth method of the *first*
record whose `from_service` matches and falls back whenever that one value
is missing/empty, never scanning later records. -/
theorem resolver_auth_fallback_counterexample :
    (scanServices (normPath "svc1/x.py") (pySplitSlash (normPath "svc1/x.py"))
        mAuthCex.services (none, 0)).1 =
      some ("svc1", { repository_paths := ["svc1/"] }) ∧
    (∃ comm ∈ mAuthCex.communications,
      comm.from_service = some "svc1" ∧ comm.auth_method = some "mtls") ∧
    (get_deployment_context mAuthCex "svc1/x.py").map
        (fun c => c.authentication_method) = some (some "jwt") ∧
    mAuthCex.user_authentication_method = some "jwt" ∧
    (some "jwt" : Option String) ≠ some "mtls" := by
  refine ⟨by decide, ⟨{ from_service := some "svc1", auth_method := some "mtls" },
    by decide, rfl, rfl⟩, by decide, rfl, by decide⟩

/-- C6 (amended): the resolver's `authentication_method` is determined by
the *first* communication record whose `from_service` equals the matched
service: if that record's `auth_method` is usable (non-missing, non-empty)
it wins over the global method; if that record's `auth_method` is missing or
empty — or no record matches at all — the value falls back to the model's
global `user_authentication_method`. -/
theorem resolver_auth_first_record (m : DeployModel) (path : String)
    (ctx : DeploymentContext) (h : get_deployment_context m path = some ctx) :
    ∃ name info,
      (scanServices (normPath path) (pySplitSlash (normPath path)) m.services
        (none, 0)).1 = some (name, info) ∧
      ctx.authentication_method =
        (match m.communications.find? (fun c => c.from_service == some name) with
         | some c =>
           if optFalsy c.auth_method then m.user_authentication_method else c.auth_method
         | none => m.user_authentication_method) := by
  unfold get_deployment_context at h
  by_cases hemp : m.services.isEmpty = true
  · rw [if_pos hemp] at h
    exact absurd h (by simp)
  · rw [if_neg hemp] at h
    dsimp only at h
    cases hscan : scanServices (normPath path) (pySplitSlash (normPath path))
        m.services (none, 0) with
    | mk fst snd =>
      rw [hscan] at h
      cases fst with
      | none => exact absurd h (by simp)
      | some p =>
        obtain ⟨name, info⟩ := p
        refine ⟨name, info, rfl, ?_⟩
        have hctx := Option.some.inj h
        rw [← hctx]
        cases hfind : m.communications.find? (fun c => c.from_service == some name) with
        | none => simp [hfind, optFalsy]
        | some c => simp [hfind]

/-- Witness for the amended C6: at the counterexample model the resolver
returns a context and its auth method obeys the first-record rule. -/
theorem resolver_auth_first_record_witness :
    get_deployment_context mAuthCex "svc1/x.py" =
      some { service_name := "svc1", trust_zone := none,
             network_exposure := "Internal only",
             authentication_method := some "jwt", deployment_target := none,
             upstream_services := [], downstream_services := [] } ∧
    ∃ name info,
      (scanServices (normPath "svc1/x.py") (pySplitSlash (normPath "svc1/x.py"))
        mAuthCex.services (none, 0)).1 = some (name, info) ∧
      ({ service_name := "svc1", trust_zone := none,
         network_exposure := "Internal only",
         authentication_method := some "jwt", deployment_target := none,
         upstream_services := [], downstream_services := [] } :
            DeploymentContext).authentication_method =
        (match mAuthCex.communications.find? (fun c => c.from_service == some name) with
         | some c =>
           if optFalsy c.auth_method then mAuthCex.user_authentication_method
           else c.auth_method
         | none => mAuthCex.user_authentication_method) :=
  ⟨by decide,
    resolver_auth_first_record mAuthCex "svc1/x.py" _ (by decide)⟩

/-! ### Injectivity of the dedup location key (C7)

`analyze.py` dedups on the string `f"{file_path}:{line_number}"`; the spec
speaks of the `(file_path, line)` pair.  The two agree because the decimal
rendering of the line number contains no `:`, so the key determines the pair. -/

/-- Value of a decimal digit character. -/
def digitVal (c : Char) : Nat := c.toNat - 48

/-- Reading a digit string back as a number. -/
def decVal (cs : List Char) : Nat := cs.foldl (fun acc c => 10 * acc + digitVal c) 0

theorem decVal_append (xs : List Char) (c : Char) :
    decVal (xs ++ [c]) = 10 * decVal xs + digitVal c := by
  simp [decVal, List.foldl_append]

theorem digitVal_digitChar : ∀ d, d < 10 → digitVal (digitChar d) = d := by decide

theorem digitChar_ne (d : Nat) : digitChar d ≠ ':' ∧ digitChar d ≠ '-' := by
  unfold digitChar
  split <;> exact ⟨by decide, by decide⟩

theorem decVal_pyStrNat (n : Nat) : decVal (pyStrNat n) = n := by
  induction n using Nat.strong_induction_on with
  | _ n ih =>
    rw [pyStrNat]
    by_cases h : n < 10
    · rw [dif_pos h]
      have h1 : decVal [digitChar n] = digitVal (digitChar n) := by simp [decVal]
      rw [h1, digitVal_digitChar n h]
    · rw [dif_neg h]
      rw [decVal_append, ih (n / 10) (Nat.div_lt_self (by omega) (by omega)),
        digitVal_digitChar (n % 10) (Nat.mod_lt _ (by omega))]
      omega

theorem pyStrNat_inj {m n : Nat} (h : pyStrNat m = pyStrNat n) : m = n := by
  calc m = decVal (pyStrNat m) := (decVal_pyStrNat m).symm
  _ = decVal (pyStrNat n) := by rw [h]
  _ = n := decVal_pyStrNat n

theorem pyStrNat_mem_ne (n : Nat) : ∀ c ∈ pyStrNat n, c ≠ ':' ∧ c ≠ '-' := by
  induction n using Nat.strong_induction_on with
  | _ n ih =>
    rw [pyStrNat]
    by_cases h : n < 10
    · rw [dif_pos h]
      intro c hc
      have : c = digitChar n := by simpa using hc
      rw [this]
      exact digitChar_ne n
    · rw [dif_neg h]
      intro c hc
      rcases List.mem_append.1 hc with h1 | h2
      · exact ih (n / 10) (Nat.div_lt_self (by omega) (by omega)) c h1
      · have : c = digitChar (n % 10) := by simpa using h2
        rw [this]
        exact digitChar_ne _

theorem pyStrNat_ne_nil (n : Nat) : pyStrNat n ≠ [] := by
  rw [pyStrNat]
  by_cases h : n < 10
  · rw [dif_pos h]; simp
  · rw [dif_neg h]; simp

theorem pyStrInt_mem_ne_colon (i : Int) : ∀ c ∈ (pyStrInt i).data, c ≠ ':' := by
  unfold pyStrInt
  by_cases h : i < 0
  · rw [if_pos h]
    intro c hc
    rcases List.mem_cons.1 hc with rfl | hc
    · decide
    · exact (pyStrNat_mem_ne _ c hc).1
  · rw [if_neg h]
    intro c hc
    exact (pyStrNat_mem_ne _ c hc).1

/-- Strings with equal underlying char lists are equal. -/
theorem string_data_inj : ∀ {s t : String}, s.data = t.data → s = t := by
  intro s t h
  cases s
  cases t
  exact congrArg String.mk h

theorem pyStrInt_inj {i j : Int} (h : pyStrInt i = pyStrInt j) : i = j := by
  have hd : (pyStrInt i).data = (pyStrInt j).data := by rw [h]
  unfold pyStrInt at hd
  by_cases hi : i < 0 <;> by_cases hj : j < 0
  · rw [if_pos hi, if_pos hj] at hd
    have h2 : pyStrNat (-i).toNat = pyStrNat (-j).toNat := by
      have : ('-' :: pyStrNat (-i).toNat) = ('-' :: pyStrNat (-j).toNat) := hd
      simpa using this
    have := pyStrNat_inj h2
    omega
  · exfalso
    rw [if_pos hi, if_neg hj] at hd
    have hd' : ('-' :: pyStrNat (-i).toNat) = pyStrNat j.toNat := hd
    cases hB : pyStrNat j.toNat with
    | nil => exact pyStrNat_ne_nil _ hB
    | cons b bs =>
      rw [hB] at hd'
      have hb : '-' = b := by injection hd'
      have hmem : b ∈ pyStrNat j.toNat := by rw [hB]; exact List.mem_cons_self b bs
      exact (pyStrNat_mem_ne _ b hmem).2 hb.symm
  · exfalso
    rw [if_neg hi, if_pos hj] at hd
    have hd' : pyStrNat i.toNat = ('-' :: pyStrNat (-j).toNat) := hd
    cases hB : pyStrNat i.toNat with
    | nil => exact pyStrNat_ne_nil _ hB
    | cons b bs =>
      rw [hB] at hd'
      have hb : b = '-' := by injection hd'
      have hmem : b ∈ pyStrNat i.toNat := by rw [hB]; exact List.mem_cons_self b bs
      exact (pyStrNat_mem_ne _ b hmem).2 hb
  · rw [if_neg hi, if_neg hj] at hd
    have h2 : pyStrNat i.toNat = pyStrNat j.toNat := hd
    have := pyStrNat_inj h2
    omega

/-- Splitting at the first `:`: if neither prefix contains `:`, equal
decorated lists have equal parts. -/
theorem splitFirst : ∀ (x1 x2 y1 y2 : List Char),
    (∀ c ∈ x1, c ≠ ':') → (∀ c ∈ x2, c ≠ ':') →
    x1 ++ ':' :: y1 = x2 ++ ':' :: y2 → x1 = x2 ∧ y1 = y2 := by
  intro x1
  induction x1 with
  | nil =>
    intro x2 y1 y2 _ h2 h
    cases x2 with
    | nil => simpa using h
    | cons c t =>
      exfalso
      simp only [List.nil_append, List.cons_append] at h
      have hc : ':' = c := by injection h
      exact h2 c (List.mem_cons_self c t) hc.symm
  | cons c t ih =>
    intro x2 y1 y2 h1 h2 h
    cases x2 with
    | nil =>
      exfalso
      simp only [List.nil_append, List.cons_append] at h
      have hc : c = ':' := by injection h
      exact h1 c (List.mem_cons_self c t) hc
    | cons c' t' =>
      simp only [List.cons_append] at h
      have hc : c = c' := by injection h
      have ht : t ++ ':' :: y1 = t' ++ ':' :: y2 := by injection h
      obtain ⟨he, hy⟩ := ih t' y1 y2 (fun a ha => h1 a (List.mem_cons_of_mem _ ha))
        (fun a ha => h2 a (List.mem_cons_of_mem _ ha)) ht
      exact ⟨by rw [hc, he], hy⟩

/-- The string key of `analyze.py` determines the `(file_path, line)` pair. -/
theorem location_key_inj {f g : AstGrepFinding}
    (h : location_key f = location_key g) : pairKey f = pairKey g := by
  have hd : f.file_path.data ++ ':' :: (pyStrInt f.line_number).data =
      g.file_path.data ++ ':' :: (pyStrInt g.line_number).data := by
    have h0 := congrArg String.data h
    simpa [location_key, List.append_assoc] using h0
  have hrev : (pyStrInt f.line_number).data.reverse ++ ':' :: f.file_path.data.reverse =
      (pyStrInt g.line_number).data.reverse ++ ':' :: g.file_path.data.reverse := by
    have h0 := congrArg List.reverse hd
    simpa [List.reverse_append] using h0
  obtain ⟨hsuf, hpre⟩ := splitFirst _ _ _ _
    (fun c hc => pyStrInt_mem_ne_colon f.line_number c (List.mem_reverse.1 hc))
    (fun c hc => pyStrInt_mem_ne_colon g.line_number c (List.mem_reverse.1 hc)) hrev
  have hfp : f.file_path = g.file_path := by
    apply string_data_inj
    have h0 := congrArg List.reverse hpre
    simpa using h0
  have hln : f.line_number = g.line_number := by
    apply pyStrInt_inj
    apply string_data_inj
    have h0 := congrArg List.reverse hsuf
    simpa using h0
  simp [pairKey, hfp, hln]

/-! ### Deduplication behavior (C7) -/

theorem dedupAux_sublist : ∀ (fs : List AstGrepFinding) (seen : List String),
    (dedupAux fs seen).1.Sublist fs := by
  intro fs
  induction fs with
  | nil => intro seen; simp [dedupAux]
  | cons f rest ih =>
    intro seen
    by_cases h : seen.contains (location_key f) = true
    · simp only [dedupAux, h, if_true]
      exact (ih seen).cons f
    · simp only [Bool.not_eq_true] at h
      simp only [dedupAux, h, Bool.false_eq_true, if_false]
      exact (ih _).cons₂ f

theorem dedupAux_count : ∀ (fs : List AstGrepFinding) (seen : List String),
    (dedupAux fs seen).2 + (dedupAux fs seen).1.length = fs.length := by
  intro fs
  induction fs with
  | nil => intro seen; simp [dedupAux]
  | cons f rest ih =>
    intro seen
    by_cases h : seen.contains (location_key f) = true
    · simp only [dedupAux, h, if_true, List.length_cons]
      have := ih seen
      omega
    · simp only [Bool.not_eq_true] at h
      simp only [dedupAux, h, Bool.false_eq_true, if_false, List.length_cons]
      have := ih (location_key f :: seen)
      omega

theorem dedupAux_filter (k : String) : ∀ (fs : List AstGrepFinding) (seen : List String),
    (k ∈ seen → (dedupAux fs seen).1.filter (fun g => location_key g == k) = []) ∧
    (k ∉ seen → (dedupAux fs seen).1.filter (fun g => location_key g == k) =
      (fs.filter (fun g => location_key g == k)).take 1) := by
  intro fs
  induction fs with
  | nil => intro seen; exact ⟨fun _ => by simp [dedupAux], fun _ => by simp [dedupAux]⟩
  | cons f rest ih =>
    intro seen
    by_cases hcont : seen.contains (location_key f) = true
    · have hkeyin : location_key f ∈ seen := by simpa using hcont
      refine ⟨fun hk => ?_, fun hk => ?_⟩
      · simp only [dedupAux, hcont, if_true]
        exact (ih seen).1 hk
      · have hne : location_key f ≠ k := fun he => hk (he ▸ hkeyin)
        simp only [dedupAux, hcont, if_true]
        rw [(ih seen).2 hk]
        simp [List.filter_cons, hne]
    · have hkeyout : location_key f ∉ seen := by simpa using hcont
      simp only [Bool.not_eq_true] at hcont
      refine ⟨fun hk => ?_, fun hk => ?_⟩
      · have hne : location_key f ≠ k := fun he => hkeyout (he ▸ hk)
        have hrec := (ih (location_key f :: seen)).1 (List.mem_cons_of_mem _ hk)
        simp only [dedupAux, hcont, Bool.false_eq_true, if_false]
        simp [List.filter_cons, hne, hrec]
      · by_cases hke : location_key f = k
        · have hzero := (ih (location_key f :: seen)).1 (hke ▸ List.mem_cons_self _ _)
          rw [hke] at hzero
          simp only [dedupAux, hcont, Bool.false_eq_true, if_false]
          simp [List.filter_cons, hke, hzero]
        · have hknotin : k ∉ location_key f :: seen := by
            intro hmem
            rcases List.mem_cons.1 hmem with he | hm
            · exact hke he.symm
            · exact hk hm
          have hrec := (ih (location_key f :: seen)).2 hknotin
          simp only [dedupAux, hcont, Bool.false_eq_true, if_false]
          simp [List.filter_cons, hke, hrec]

theorem dedupAux_keys : ∀ (fs : List AstGrepFinding) (seen : List String),
    ((dedupAux fs seen).1.map location_key).Nodup ∧
    (∀ k ∈ (dedupAux fs seen).1.map location_key, k ∉ seen) := by
  intro fs
  induction fs with
  | nil => intro seen; simp [dedupAux]
  | cons f rest ih =>
    intro seen
    by_cases hcont : seen.contains (location_key f) = true
    · simp only [dedupAux, hcont, if_true]
      exact ih seen
    · have hkeyout : location_key f ∉ seen := by simpa using hcont
      simp only [Bool.not_eq_true] at hcont
      obtain ⟨hnd, hout⟩ := ih (location_key f :: seen)
      simp only [dedupAux, hcont, Bool.false_eq_true, if_false, List.map_cons]
      constructor
      · rw [List.nodup_cons]
        exact ⟨fun hmem => (hout _ hmem) (List.mem_cons_self _ _), hnd⟩
      · intro k hk
        rcases List.mem_cons.1 hk with rfl | hk
        · exact hkeyout
        · exact fun hmem => hout k hk (List.mem_cons_of_mem _ hmem)

/-- A finding carrying exactly a given `(file_path, line)` pair. -/
def mkKeyFinding (k : String × Int) : AstGrepFinding :=
  { file_path := k.1, line_number := k.2, column := 0, rule_id := "",
    message := "", code_snippet := "", framework := "", language := "" }

theorem pairKey_mkKeyFinding (k : String × Int) : pairKey (mkKeyFinding k) = k := rfl

/-- Equal pairs give equal string keys. -/
theorem pairKey_determines {f g : AstGrepFinding} (h : pairKey f = pairKey g) :
    location_key f = location_key g := by
  unfold pairKey at h
  have h1 : f.file_path = g.file_path := congrArg Prod.fst h
  have h2 : f.line_number = g.line_number := congrArg Prod.snd h
  unfold location_key
  rw [h1, h2]

/-- The Boolean key tests agree pointwise. -/
theorem pairKey_beq_eq (k : String × Int) (g : AstGrepFinding) :
    (pairKey g == k) = (location_key g == location_key (mkKeyFinding k)) := by
  by_cases hp : pairKey g = k
  · have hl : location_key g = location_key (mkKeyFinding k) :=
      pairKey_determines (by rw [hp, pairKey_mkKeyFinding])
    simp [hp, hl]
  · have hl : location_key g ≠ location_key (mkKeyFinding k) := fun he => by
      have := location_key_inj he
      rw [pairKey_mkKeyFinding] at this
      exact hp this
    simp [hp, hl]

theorem take_one_ne_nil {l : List AstGrepFinding} (h : l ≠ []) : l.take 1 ≠ [] := by
  cases l with
  | nil => exact absurd rfl h
  | cons x xs => simp

/-- C7: deduplication keeps, for every distinct `(file_path, line)` key,
exactly the first-seen record (the filter of the output by any key is the
head of the input's filter by that key), preserves first-seen order (the
output is a sublist of the input), and reports
`duplicates_removed = input length − number of distinct keys`. -/
theorem dedup_first_seen_per_key (findings : List AstGrepFinding) :
    (dedup_findings findings).1.Sublist findings ∧
    (∀ k : String × Int,
      (dedup_findings findings).1.filter (fun g => pairKey g == k) =
        (findings.filter (fun g => pairKey g == k)).take 1) ∧
    (dedup_findings findings).1.length = (findings.map pairKey).dedup.length ∧
    (dedup_findings findings).2 =
      findings.length - (findings.map pairKey).dedup.length := by
  have hfilter : ∀ k : String × Int,
      (dedup_findings findings).1.filter (fun g => pairKey g == k) =
        (findings.filter (fun g => pairKey g == k)).take 1 := by
    intro k
    have h1 : (dedup_findings findings).1.filter (fun g => pairKey g == k) =
        (dedup_findings findings).1.filter
          (fun g => location_key g == location_key (mkKeyFinding k)) :=
      List.filter_congr (fun g _ => pairKey_beq_eq k g)
    have h2 : findings.filter (fun g => pairKey g == k) =
        findings.filter (fun g => location_key g == location_key (mkKeyFinding k)) :=
      List.filter_congr (fun g _ => pairKey_beq_eq k g)
    rw [h1, h2]
    exact (dedupAux_filter (location_key (mkKeyFinding k)) findings []).2 (by simp)
  have hsub : (dedup_findings findings).1.Sublist findings := dedupAux_sublist findings []
  have hnodup : ((dedup_findings findings).1.map pairKey).Nodup := by
    apply List.Nodup.of_map (fun p => location_key (mkKeyFinding p))
    have hmm : List.map (fun p => location_key (mkKeyFinding p))
        ((dedup_findings findings).1.map pairKey) =
        (dedup_findings findings).1.map location_key := by
      rw [List.map_map]
      exact List.map_congr_left (fun g _ => rfl)
    rw [hmm]
    exact (dedupAux_keys findings []).1
  have hmem : ∀ a, a ∈ (dedup_findings findings).1.map pairKey ↔
      a ∈ findings.map pairKey := by
    intro a
    constructor
    · intro ha
      exact (hsub.map pairKey).subset ha
    · intro ha
      obtain ⟨g, hg, rfl⟩ := List.mem_map.1 ha
      have hne : findings.filter (fun x => pairKey x == pairKey g) ≠ [] := by
        intro hnil
        have : g ∈ findings.filter (fun x => pairKey x == pairKey g) :=
          List.mem_filter.2 ⟨hg, by simp⟩
        rw [hnil] at this
        exact absurd this (List.not_mem_nil g)
      have hne2 : (dedup_findings findings).1.filter
          (fun x => pairKey x == pairKey g) ≠ [] := by
        rw [hfilter (pairKey g)]
        exact take_one_ne_nil hne
      cases hF : (dedup_findings findings).1.filter (fun x => pairKey x == pairKey g) with
      | nil => exact absurd hF hne2
      | cons x xs =>
        have hx : x ∈ (dedup_findings findings).1.filter
            (fun y => pairKey y == pairKey g) := by
          rw [hF]; exact List.mem_cons_self x xs
        obtain ⟨hxu, hxk⟩ := List.mem_filter.1 hx
        have : pairKey x = pairKey g := by simpa using hxk
        rw [← this]
        exact List.mem_map_of_mem pairKey hxu
  have hlen : (dedup_findings findings).1.length = (findings.map pairKey).dedup.length := by
    have hfin : ((dedup_findings findings).1.map pairKey).toFinset =
        (findings.map pairKey).toFinset := by
      apply Finset.ext
      intro a
      simp only [List.mem_toFinset]
      exact hmem a
    calc (dedup_findings findings).1.length
        = ((dedup_findings findings).1.map pairKey).length := (List.length_map _ _).symm
      _ = ((dedup_findings findings).1.map pairKey).toFinset.card :=
          (List.toFinset_card_of_nodup hnodup).symm
      _ = (findings.map pairKey).toFinset.card := by rw [hfin]
      _ = (findings.map pairKey).dedup.length := List.card_toFinset _
  refine ⟨hsub, hfilter, hlen, ?_⟩
  have hcnt := dedupAux_count findings []
  have hsum : (dedup_findings findings).2 + (dedup_findings findings).1.length =
      findings.length := hcnt
  omega

end SecurityReview
